import Mathlib

/-!
Verification of the File Scavenger unused-file detection core against its
TypeScript source (extension.ts). The definitions below are a shallow
embedding of the source: paths are strings, file contents are looked up
through a `String → Option String` map (`readFile` returning `none` models a
caught read failure), the VS Code cancellation token is modelled as an
optional poll threshold (`cancelAt = some c` means `isCancellationRequested`
starts returning `true` from the `c`-th poll onwards, matching the monotone
behaviour of a real token), and the `vscode.Memento` override store is a
`String → Bool` map (`get(path, false)`).
-/

set_option autoImplicit false
set_option maxRecDepth 100000

namespace Scavenger

/-- Substring machinery for JavaScript `String.prototype.includes`:
`leadsWith sub hay` is true when `sub` occurs at the start of `hay`. -/
def leadsWith : List Char → List Char → Bool
  | [], _ => true
  | _ :: _, [] => false
  | a :: as, b :: bs => a = b && leadsWith as bs

/-- Whether `sub` occurs contiguously anywhere in `hay` (the empty list
occurs in everything), completing the model of `content.includes(sub)`. -/
def occursIn (sub : List Char) : List Char → Bool
  | [] => sub.isEmpty
  | c :: rest => leadsWith sub (c :: rest) || occursIn sub rest

/-- Model of JavaScript `content.includes(sub)`. -/
def jsIncludes (content sub : String) : Bool := occursIn sub.data content.data

/-- Helper for `basename`: keeps the characters seen since the last `/`. -/
def lastSegment (cur : List Char) : List Char → List Char
  | [] => cur.reverse
  | c :: rest => if c = '/' then lastSegment [] rest else lastSegment (c :: cur) rest

/-- Model of `path.basename` for `/`-separated paths: the final path
segment. -/
def basename (p : String) : String := String.mk (lastSegment [] p.data)

/-- Splits a character list at every `.`, modelling
`fileName.split('.')`. -/
def splitDotsAux (cur : List Char) : List Char → List (List Char)
  | [] => [cur.reverse]
  | c :: rest =>
      if c = '.' then cur.reverse :: splitDotsAux [] rest
      else splitDotsAux (c :: cur) rest

/-- Joins character lists with `.`, modelling `parts.join('.')`. -/
def joinDots : List (List Char) → List Char
  | [] => []
  | [x] => x
  | x :: y :: rest => x ++ '.' :: joinDots (y :: rest)

/-- Model of `fileName.split('.').slice(0, -1).join('.')`, the
extension-stripped stem computed by `findUnusedFiles`. -/
def stemOf (fileName : String) : String :=
  String.mk (joinDots (splitDotsAux [] fileName.data).dropLast)

/-- Model of `path.extname`: the final `.`-suffix of the basename, empty for
dotfiles such as `.env` and for names with no dot. -/
def extname (p : String) : String :=
  match splitDotsAux [] (basename p).data with
  | [] => ""
  | [_] => ""
  | [[], _] => ""
  | parts => String.mk ('.' :: parts.getLastD [])

/-- ASCII-adequate model of `String.prototype.toLowerCase`, applied by the
orchestrator to each file extension. -/
def toLowerStr (s : String) : String := String.mk (s.data.map Char.toLower)

/-- Model of `path.join(dirPath, item.name)` on POSIX paths. -/
def joinPath (a b : String) : String := a ++ "/" ++ b

mutual
/-- Directory entry handed to the walker, mirroring what
`fs.promises.readdir` with `withFileTypes` exposes: a file (with its on-disk
content) or a directory. -/
inductive Entry where
  | file (name content : String)
  | dir (name : String) (children : EntryList)
/-- Entries of one directory, in directory order. -/
inductive EntryList where
  | nil
  | cons (head : Entry) (tail : EntryList)
end

mutual
/-- Contribution of one directory entry to `getAllFiles`: a non-ignored file
yields its joined path, a non-ignored directory yields its recursive walk. -/
def entryFiles (dirPath : String) (ignoreFolders ignoreRootFiles : List String) :
    Entry → List String
  | Entry.file name _ =>
      if ignoreRootFiles.contains name then [] else [joinPath dirPath name]
  | Entry.dir name children =>
      if ignoreFolders.contains name then []
      else getAllFiles (joinPath dirPath name) ignoreFolders ignoreRootFiles children
/-- Model of `getAllFiles(dirPath, ignoreFolders, ignoreRootFiles)`:
recursively enumerates files, skipping directories whose name is in
`ignoreFolders` and non-directory entries whose name is in
`ignoreRootFiles`, in traversal order. -/
def getAllFiles (dirPath : String) (ignoreFolders ignoreRootFiles : List String) :
    EntryList → List String
  | EntryList.nil => []
  | EntryList.cons e rest =>
      entryFiles dirPath ignoreFolders ignoreRootFiles e ++
        getAllFiles dirPath ignoreFolders ignoreRootFiles rest
end

mutual
/-- All files inside one entry, tagged with the chain of directory names
leading to them; specification-side inventory used to reason about which
files `getAllFiles` prunes. -/
def collectEntry : Entry → List (List String × String)
  | Entry.file name _ => [([], name)]
  | Entry.dir name children =>
      (collectFiles children).map (fun e => (name :: e.1, e.2))
/-- All files in a tree with their directory-name chains (no pruning). -/
def collectFiles : EntryList → List (List String × String)
  | EntryList.nil => []
  | EntryList.cons e rest => collectEntry e ++ collectFiles rest
end

/-- Joined absolute path of a file reached through the directory chain
`chain` below `dirPath`. -/
def joinAll (dirPath : String) (chain : List String) (fname : String) : String :=
  joinPath (chain.foldl joinPath dirPath) fname

/-- Filter the walker actually applies: no chain directory is ignored and
the filename is not an ignored root file. -/
def keepFile (ignoreFolders ignoreRootFiles : List String)
    (e : List String × String) : Bool :=
  e.1.all (fun d => !(ignoreFolders.contains d)) && !(ignoreRootFiles.contains e.2)

mutual
/-- Content of the file at path `p` inside one entry, modelling what
`fs.readFile` finds on disk beneath `dirPath`. -/
def entryContent (dirPath p : String) : Entry → Option String
  | Entry.file name c => if joinPath dirPath name = p then some c else none
  | Entry.dir name children => lookupContent (joinPath dirPath name) p children
/-- Content of the file at path `p` in a tree; `none` when no such file
exists (a failing `readFile`). -/
def lookupContent (dirPath p : String) : EntryList → Option String
  | EntryList.nil => none
  | EntryList.cons e rest =>
      match entryContent dirPath p e with
      | some c => some c
      | none => lookupContent dirPath p rest
end

/-- Cancellation token poll: `isCancellationRequested` at poll number `p`.
`cancelAt = some c` means cancellation was requested just before the `c`-th
poll, so every poll from `c` on observes it; `none` means never. -/
def polled (cancelAt : Option Nat) (p : Nat) : Bool :=
  match cancelAt with
  | none => false
  | some c => c ≤ p

/-- Inner comparison loop of `findUnusedFiles` for one candidate `f`: scans
every other file of the list handed to the engine, declaring `f` used as
soon as some other file's content contains `f`'s basename or its
extension-stripped stem; self-comparison and failed reads contribute
nothing. -/
def isUsedIn (allB : List String) (contents : String → Option String) (f : String) : Bool :=
  allB.any (fun other =>
    other ≠ f &&
      match contents other with
      | none => false
      | some c => jsIncludes c (basename f) || jsIncludes c (stemOf (basename f)))

/-- Outer loop of `findUnusedFiles`, threading the poll counter `p`: on each
file it first polls the token (breaking out of the loop when cancellation is
observed), then skips files overridden as used, then classifies by
`isUsedIn`, pushing unused files in iteration order. Returns the unused list
and the next poll number. -/
def findUnusedAux (allB : List String) (contents : String → Option String)
    (overrides : String → Bool) (cancelAt : Option Nat) :
    List String → Nat → List String × Nat
  | [], p => ([], p)
  | f :: rest, p =>
    if polled cancelAt p then ([], p + 1)
    else if overrides f then findUnusedAux allB contents overrides cancelAt rest (p + 1)
    else if isUsedIn allB contents f then
      findUnusedAux allB contents overrides cancelAt rest (p + 1)
    else
      let r := findUnusedAux allB contents overrides cancelAt rest (p + 1)
      (f :: r.1, r.2)

/-- Model of `findUnusedFiles(trackedFiles, workspacePath, userOverrides,
token)`: both the iteration list and the comparison universe of the inner
loop are the batch that was passed in (the source's `workspacePath`
parameter is unused by its body and is omitted). -/
def findUnusedFiles (batch : List String) (contents : String → Option String)
    (overrides : String → Bool) (cancelAt : Option Nat) (p : Nat) :
    List String × Nat :=
  findUnusedAux batch contents overrides cancelAt batch p

/-- Fixed batch size of the orchestrator (`const batchSize = 100`). -/
def batchSize : Nat := 100

/-- Helper for `chunks`: accumulates the current slice (reversed) with
remaining capacity `k`, emitting a full slice and starting the next one when
capacity is exhausted. -/
def chunkAux : List String → List String → Nat → List (List String)
  | [], cur, _ => if cur.isEmpty then [] else [cur.reverse]
  | x :: xs, cur, 0 => cur.reverse :: chunkAux xs [x] (batchSize - 1)
  | x :: xs, cur, k + 1 => chunkAux xs (x :: cur) k

/-- Successive slices `trackedFiles.slice(i, i + batchSize)` taken by the
orchestrator loop, in order; empty input yields no slices. -/
def chunks (l : List String) : List (List String) := chunkAux l [] batchSize

/-- Caller-observable outcome of one scan invocation: `refreshed` is the
argument of the final `unusedFileProvider.refresh` call (`none` when the
orchestrator returned early without refreshing), `canceledMsg` records
whether the `Scan canceled by user.` message was shown instead of `Scan
complete.`. -/
structure ScanOutcome where
  refreshed : Option (List String)
  canceledMsg : Bool
deriving DecidableEq

/-- Orchestrator batch loop from `activate`: before each batch the token is
polled once; if cancellation is observed the command returns immediately
(showing the canceled message and leaving the accumulated list undelivered),
otherwise the batch is passed to the engine and its unused subset is
appended to the running result. When the batches are exhausted the
accumulated list is delivered through `refresh`. -/
def scanLoop (contents : String → Option String) (overrides : String → Bool)
    (cancelAt : Option Nat) : List (List String) → Nat → List String → ScanOutcome
  | [], _, acc => ⟨some acc, false⟩
  | batch :: more, p, acc =>
    if polled cancelAt p then ⟨none, true⟩
    else
      let r := findUnusedFiles batch contents overrides cancelAt (p + 1)
      scanLoop contents overrides cancelAt more r.2 (acc ++ r.1)

/-- One scan invocation over an already tracked file list, starting with
poll counter `0` and an empty accumulator. -/
def scan (tracked : List String) (contents : String → Option String)
    (overrides : String → Bool) (cancelAt : Option Nat) : ScanOutcome :=
  scanLoop contents overrides cancelAt (chunks tracked) 0 []

/-- Configuration record consumed by the scan command. -/
structure Config where
  fileTypes : List String
  ignoreFolders : List String
  ignoreRootFiles : List String

/-- Full scan command pipeline from `activate`: walk the workspace tree,
keep files whose lowercased extension is tracked, then run the batched scan,
reading file contents from the same tree. -/
def runScan (root : String) (tree : EntryList) (config : Config)
    (overrides : String → Bool) (cancelAt : Option Nat) : ScanOutcome :=
  let allFiles := getAllFiles root config.ignoreFolders config.ignoreRootFiles tree
  let tracked := allFiles.filter
    (fun file => config.fileTypes.contains (toLowerStr (extname file)))
  scan tracked (fun p => lookupContent root p tree) overrides cancelAt

/-- Model of `UnusedFileProvider.getChildren`: the tree view shows the
stored unused list filtered by the override store, hiding files currently
marked used. -/
def getChildrenVisible (overrides : String → Bool) (unusedFiles : List String) :
    List String :=
  unusedFiles.filter (fun file => !(overrides file))

/-- Model of the `fileWatcher.onDidDelete` handler: the stored unused list
is replaced by itself with the deleted path filtered out; no rescan runs. -/
def onDelete (unusedFiles : List String) (deletedFilePath : String) : List String :=
  unusedFiles.filter (fun file => file ≠ deletedFilePath)

/-- Specification-side removal of every occurrence of a path from a list,
used to state what the deletion handler achieves. -/
def removeAll : List String → String → List String
  | [], _ => []
  | x :: xs, p => if x = p then removeAll xs p else x :: removeAll xs p

/-- JSON values, the possible results of `JSON.parse`. -/
inductive Json where
  | null
  | bool (b : Bool)
  | num (n : Int)
  | str (s : String)
  | arr (elems : List Json)
  | obj (fields : List (String × Json))

/-- Own enumerable fields contributed by `...value` in a JavaScript object
literal spread: an object's fields, index fields for arrays and strings,
nothing for primitives. -/
def jsonOwnFields : Json → List (String × Json)
  | Json.obj fields => fields
  | Json.arr elems => elems.enum.map (fun e => (toString e.1, e.2))
  | Json.str s => s.data.enum.map (fun e => (toString e.1, Json.str (String.mk [e.2])))
  | _ => []

/-- Observable state of the `.filescavengerrc` file: absent
(`!fs.existsSync`), present but failing `JSON.parse`, or parsed to a JSON
value. -/
inductive ConfigSource where
  | absent
  | malformed
  | parsed (j : Json)

/-- Default `fileTypes` of `readConfigFile`. -/
def defaultFileTypes : List String :=
  [".js", ".ts", ".jsx", ".tsx", ".css", ".scss", ".less", ".html", ".htm",
   ".json", ".xml", ".yml", ".yaml", ".png", ".jpg", ".jpeg", ".svg", ".gif",
   ".bmp", ".ico", ".webp", ".mp4", ".mp3", ".wav", ".ogg", ".pdf", ".md",
   ".txt", ".csv", ".sql", ".sh", ".bat", ".ps1", ".py", ".rb", ".php",
   ".java", ".cpp", ".c", ".h", ".go", ".rs", ".swift", ".kt", ".dart",
   ".lua", ".pl", ".r", ".hs", ".scala", ".clj", ".elm", ".erl", ".ex",
   ".fs", ".groovy", ".jl", ".nim", ".pde", ".v", ".vb", ".vbs", ".zig"]

/-- Default `ignoreFolders` of `readConfigFile`. -/
def defaultIgnoreFolders : List String :=
  ["node_modules", ".git", "dist", "build", "out", "bin", "obj", "vendor",
   "logs", "temp"]

/-- Default `ignoreRootFiles` of `readConfigFile`. -/
def defaultIgnoreRootFiles : List String :=
  ["README.md", "package.json", "package-lock.json", "tsconfig.json",
   "webpack.config.js", ".gitignore", ".env", ".env.local",
   "docker-compose.yml", "Makefile", "Procfile"]

/-- The built-in `defaultConfig` record of `readConfigFile`, as a JavaScript
field list. -/
def defaultFields : List (String × Json) :=
  [("fileTypes", Json.arr (defaultFileTypes.map Json.str)),
   ("ignoreFolders", Json.arr (defaultIgnoreFolders.map Json.str)),
   ("ignoreRootFiles", Json.arr (defaultIgnoreRootFiles.map Json.str))]

/-- Model of `readConfigFile`: a missing file or a parse failure falls back
to the defaults; a parsed value is overlaid onto the defaults exactly as the
object spread `{ ...defaultConfig, ...userConfig }` does. -/
def readConfigFile : ConfigSource → List (String × Json)
  | ConfigSource.absent => defaultFields
  | ConfigSource.malformed => defaultFields
  | ConfigSource.parsed j => defaultFields ++ jsonOwnFields j

/-- Property lookup on a JavaScript field list: the value of the last
binding of key `k`, as later spread entries overwrite earlier ones. -/
def getField : List (String × Json) → String → Option Json
  | [], _ => none
  | (k₀, v) :: rest, k =>
      match getField rest k with
      | some w => some w
      | none => if k₀ = k then some v else none

/-- Concrete tree of the worked example: `a.ts` empty, `b.ts` containing the
text `import "./a"`, `c.ts` empty, all at the workspace root. -/
def c3tree : EntryList :=
  EntryList.cons (Entry.file "a.ts" "")
    (EntryList.cons (Entry.file "b.ts" "import \"./a\"")
      (EntryList.cons (Entry.file "c.ts" "") EntryList.nil))

/-- Alphabet used to build the distinct basenames of the 101-file input. -/
def ceChar (n : Nat) : Char := "abcdefghijk".data.getD n 'z'

/-- Path of the `i`-th tracked file of the 101-file input; the basenames are
pairwise distinct two-letter names with extension `.ts`. -/
def cePath (i : Nat) : String :=
  String.mk ['/', 'r', '/', ceChar (i / 11), ceChar (i % 11), '.', 't', 's']

/-- 101 tracked files, one more than the batch size, so the scan runs two
batches: files 0 to 99, then file 100 alone. -/
def ceTracked : List String := (List.range 101).map cePath

/-- Contents of the 101-file input: every file is empty except file 100,
whose text is exactly the basename of file 0. -/
def ceContents (p : String) : Option String :=
  if p = cePath 100 then some "aa.ts" else some ""

/-- Small workspace tree with an ignored folder (`vendor`), a nested
directory (`src`) containing a root-ignored filename (`README.md`), and
plain files. -/
def wtree : EntryList :=
  EntryList.cons
    (Entry.dir "vendor" (EntryList.cons (Entry.file "x.ts" "") EntryList.nil))
    (EntryList.cons
      (Entry.dir "src"
        (EntryList.cons (Entry.file "README.md" "doc")
          (EntryList.cons (Entry.file "y.ts" "") EntryList.nil)))
      (EntryList.cons (Entry.file "z.ts" "") EntryList.nil))

/- ------------------------------------------------------------------ -/
/- Helper lemmas shared by the claim theorems.                        -/
/- ------------------------------------------------------------------ -/

/-- Filtering after mapping is mapping after filtering the composed
predicate. -/
theorem filter_map_comm {α β : Type} (f : α → β) (p : β → Bool) (l : List α) :
    (l.map f).filter p = (l.filter (fun a => p (f a))).map f := by
  induction l with
  | nil => rfl
  | cons a l ih => by_cases h : p (f a) <;> simp [h, ih]

/-- Candidate skipped by the engine, either because its override pins it as
used or because the textual heuristic matched: it never enters the unused
result, at any starting position of the outer loop. -/
theorem not_mem_findUnusedAux (allB : List String)
    (contents : String → Option String) (overrides : String → Bool)
    (cancelAt : Option Nat) (f : String)
    (h : overrides f = true ∨ isUsedIn allB contents f = true)
    (l : List String) : ∀ (p : Nat),
    f ∉ (findUnusedAux allB contents overrides cancelAt l p).1 := by
  induction l with
  | nil => intro p; simp [findUnusedAux]
  | cons g rest ih =>
    intro p
    simp only [findUnusedAux]
    split
    · simp
    · split
      · exact ih (p + 1)
      · split
        · exact ih (p + 1)
        · show f ∉ g :: (findUnusedAux allB contents overrides cancelAt rest (p + 1)).1
          intro hmem
          rcases List.mem_cons.mp hmem with hg | htail
          · subst hg
            rename_i hov hused
            rcases h with h | h
            · exact hov h
            · exact hused h
          · exact ih (p + 1) htail

/-- Accumulated override-pinned path never survives into a delivered scan
result. -/
theorem not_mem_scanLoop (contents : String → Option String)
    (overrides : String → Bool) (cancelAt : Option Nat) (f : String)
    (h : overrides f = true) (bs : List (List String)) :
    ∀ (p : Nat) (acc : List String), f ∉ acc →
      ∀ l, (scanLoop contents overrides cancelAt bs p acc).refreshed = some l →
        f ∉ l := by
  induction bs with
  | nil =>
    intro p acc hacc l hl
    simp only [scanLoop] at hl
    cases hl
    exact hacc
  | cons batch more ih =>
    intro p acc hacc l hl
    simp only [scanLoop] at hl
    split at hl
    · cases hl
    · refine ih _ _ ?_ l hl
      intro hmem
      rcases List.mem_append.mp hmem with hm | hm
      · exact hacc hm
      · exact not_mem_findUnusedAux batch contents overrides cancelAt f
          (Or.inl h) batch (p + 1) hm

/-- Chain step of `joinAll`: pushing a directory onto the chain is the same
as starting the fold from the joined directory path. -/
theorem joinAll_cons (d name : String) (chain : List String) (fname : String) :
    joinAll d (name :: chain) fname = joinAll (joinPath d name) chain fname := rfl

mutual
/-- Walker characterization, entry form: an entry's contribution is exactly
its inventoried files surviving the ignore filter, joined below the current
directory path. -/
theorem entryFiles_eq_keep (d : String) (iF iR : List String) :
    ∀ (e : Entry), entryFiles d iF iR e =
      ((collectEntry e).filter (keepFile iF iR)).map (fun x => joinAll d x.1 x.2)
  | Entry.file name c => by
      by_cases h : name ∈ iR <;>
        simp [entryFiles, collectEntry, keepFile, joinAll, joinPath, h]
  | Entry.dir name children => by
      by_cases h : name ∈ iF
      · have hfil : ((collectFiles children).map
            (fun e => (name :: e.1, e.2))).filter (keepFile iF iR) = [] := by
          rw [filter_map_comm]
          rw [List.filter_eq_nil_iff.mpr (fun y _ => by simp [keepFile, h])]
          rfl
        simp [entryFiles, collectEntry, h, hfil]
      · rw [show entryFiles d iF iR (Entry.dir name children) =
            getAllFiles (joinPath d name) iF iR children by simp [entryFiles, h]]
        rw [getAllFiles_eq_keep (joinPath d name) iF iR children]
        show _ = ((((collectFiles children).map
          (fun e => (name :: e.1, e.2))).filter (keepFile iF iR)).map
            (fun x => joinAll d x.1 x.2))
        rw [filter_map_comm]
        rw [List.map_map]
        congr 1
        apply List.filter_congr
        intro x _
        simp [keepFile, h]
/-- Walker characterization, list form: `getAllFiles` returns exactly the
joined paths of the inventoried files that pass the ignore filter, in
traversal order. -/
theorem getAllFiles_eq_keep (d : String) (iF iR : List String) :
    ∀ (l : EntryList), getAllFiles d iF iR l =
      ((collectFiles l).filter (keepFile iF iR)).map (fun x => joinAll d x.1 x.2)
  | EntryList.nil => rfl
  | EntryList.cons e rest => by
      show entryFiles d iF iR e ++ getAllFiles d iF iR rest = _
      rw [entryFiles_eq_keep d iF iR e, getAllFiles_eq_keep d iF iR rest]
      show _ = (((collectEntry e ++ collectFiles rest).filter
        (keepFile iF iR)).map (fun x => joinAll d x.1 x.2))
      rw [List.filter_append, List.map_append]
end

/-- Last-binding lookup across a field-list append: the right block wins
when it binds the key, otherwise the left block is consulted. -/
theorem getField_append (a b : List (String × Json)) (k : String) :
    getField (a ++ b) k =
      match getField b k with
      | some w => some w
      | none => getField a k := by
  induction a with
  | nil =>
    simp only [List.nil_append]
    cases getField b k <;> rfl
  | cons kv a ih =>
    obtain ⟨k₀, v⟩ := kv
    show (match getField (a ++ b) k with
      | some w => some w
      | none => if k₀ = k then some v else none) = _
    rw [ih]
    cases hb : getField b k <;> cases ha : getField a k <;> simp [getField, ha]

/-- The deletion handler's filter removes exactly the occurrences of the
deleted path. -/
theorem onDelete_eq_removeAll (l : List String) (p : String) :
    onDelete l p = removeAll l p := by
  induction l with
  | nil => rfl
  | cons x xs ih =>
    by_cases h : x = p <;> simp [onDelete, removeAll, h] <;>
      simpa [onDelete] using ih

/-- Removing a path that does not occur leaves the list unchanged. -/
theorem removeAll_of_not_mem (l : List String) (p : String) (h : p ∉ l) :
    removeAll l p = l := by
  induction l with
  | nil => rfl
  | cons x xs ih =>
    have hx : x ≠ p := fun e => h (e ▸ List.mem_cons_self x xs)
    have hxs : p ∉ xs := fun m => h (List.mem_cons_of_mem x m)
    simp [removeAll, hx, ih hxs]

/-- Anatomy of a file in the engine's unused output: it was reached before
any cancellation (it lies in the prefix of the iteration list processed
while polls still returned false), its override was consulted and found
clear, and its full `isUsedIn` comparison against every other file of the
engine's list ran and found no match. -/
theorem mem_findUnusedAux_spec (allB : List String)
    (contents : String → Option String) (overrides : String → Bool)
    (cancelAt : Option Nat) (f : String) (l : List String) : ∀ (p : Nat),
    f ∈ (findUnusedAux allB contents overrides cancelAt l p).1 →
      overrides f = false ∧ isUsedIn allB contents f = false ∧ f ∈ l ∧
        ∀ c, cancelAt = some c → f ∈ l.take (c - p) := by
  induction l with
  | nil => intro p h; simp [findUnusedAux] at h
  | cons g rest ih =>
    intro p h
    simp only [findUnusedAux] at h
    by_cases hpoll : polled cancelAt p = true
    · rw [if_pos hpoll] at h
      simp at h
    · rw [if_neg hpoll] at h
      have hlt : ∀ c, cancelAt = some c → p < c := by
        intro c hc
        subst hc
        simp only [polled, decide_eq_true_eq] at hpoll
        omega
      have hstep : ∀ c, cancelAt = some c →
          (g :: rest).take (c - p) = g :: rest.take (c - (p + 1)) := by
        intro c hc
        have h1 : c - p = (c - (p + 1)) + 1 := by have := hlt c hc; omega
        rw [h1, List.take_succ_cons]
      by_cases hov : overrides g = true
      · rw [if_pos hov] at h
        obtain ⟨h1, h2, h3, h4⟩ := ih (p + 1) h
        exact ⟨h1, h2, List.mem_cons_of_mem g h3, fun c hc =>
          (hstep c hc) ▸ List.mem_cons_of_mem g (h4 c hc)⟩
      · rw [if_neg hov] at h
        by_cases hused : isUsedIn allB contents g = true
        · rw [if_pos hused] at h
          obtain ⟨h1, h2, h3, h4⟩ := ih (p + 1) h
          exact ⟨h1, h2, List.mem_cons_of_mem g h3, fun c hc =>
            (hstep c hc) ▸ List.mem_cons_of_mem g (h4 c hc)⟩
        · rw [if_neg hused] at h
          have h : f ∈ g ::
              (findUnusedAux allB contents overrides cancelAt rest (p + 1)).1 := h
          rcases List.mem_cons.mp h with hg | htail
          · subst hg
            exact ⟨by simpa using hov, by simpa using hused, List.mem_cons_self f rest,
              fun c hc => (hstep c hc) ▸ List.mem_cons_self f _⟩
          · obtain ⟨h1, h2, h3, h4⟩ := ih (p + 1) htail
            exact ⟨h1, h2, List.mem_cons_of_mem g h3, fun c hc =>
              (hstep c hc) ▸ List.mem_cons_of_mem g (h4 c hc)⟩

/- ------------------------------------------------------------------ -/
/- Claim theorems.                                                    -/
/- ------------------------------------------------------------------ -/

/-- C4: a call to `findUnusedFiles` whose batch is a single file with no
override, with cancellation never requested, returns exactly that file —
regardless of the file's own content and of every other file's content,
since the comparison loop sees only the batch and skips self-comparison. -/
theorem c4_singleton_batch_unused (f : String)
    (contents : String → Option String) (overrides : String → Bool) (p : Nat)
    (hov : overrides f = false) :
    (findUnusedFiles [f] contents overrides none p).1 = [f] := by
  simp [findUnusedFiles, findUnusedAux, polled, hov, isUsedIn]

/-- C4 witness: a singleton batch whose only file's content mentions its own
name is still classified unused. -/
theorem c4_singleton_batch_unused_witness :
    ((fun _ => false : String → Bool) "/r/self.ts" = false) ∧
    (findUnusedFiles ["/r/self.ts"] (fun _ => some "self.ts is mentioned here")
      (fun _ => false) none 0).1 = ["/r/self.ts"] :=
  ⟨rfl, c4_singleton_batch_unused "/r/self.ts" _ _ 0 rfl⟩

/-- C5: a path whose override is `true` when the scan evaluates it is absent
from any delivered scan result, and is filtered out of the tree view's
visible children, whatever the heuristic would have said; the exclusion
recurs on every scan run against a store that still maps the path to
`true`. -/
theorem c5_override_excluded (tracked : List String)
    (contents : String → Option String) (overrides : String → Bool)
    (cancelAt : Option Nat) (pth : String) (h : overrides pth = true) :
    (∀ l, (scan tracked contents overrides cancelAt).refreshed = some l →
      pth ∉ l) ∧
    (∀ files : List String, pth ∉ getChildrenVisible overrides files) := by
  constructor
  · intro l hl
    exact not_mem_scanLoop contents overrides cancelAt pth h (chunks tracked)
      0 [] (by simp) l hl
  · intro files hmem
    have := List.mem_filter.mp hmem
    simp [h] at this

/-- C5 witness: with `/r/a.ts` overridden as used, the delivered result of a
two-file scan contains only `/r/b.ts`, and `/r/a.ts` is not among the
visible children. -/
theorem c5_override_excluded_witness :
    ((fun q => q == "/r/a.ts") : String → Bool) "/r/a.ts" = true ∧
    "/r/a.ts" ∉ (["/r/b.ts"] : List String) :=
  ⟨by decide,
   (c5_override_excluded ["/r/a.ts", "/r/b.ts"] (fun _ => some "")
      (fun q => q == "/r/a.ts") none "/r/a.ts" (by decide)).1
     ["/r/b.ts"] (by decide)⟩

/-- C6: every file in the engine's unused result had its override checked,
had its full comparison loop against all other files of its batch run
without finding a match, and was reached before cancellation was observed;
files skipped when cancellation hits (those beyond the processed prefix)
are omitted, never asserted unused. -/
theorem c6_cancellation_omits_unchecked (batch : List String)
    (contents : String → Option String) (overrides : String → Bool)
    (cancelAt : Option Nat) (p0 : Nat) (f : String)
    (hf : f ∈ (findUnusedFiles batch contents overrides cancelAt p0).1) :
    overrides f = false ∧ isUsedIn batch contents f = false ∧ f ∈ batch ∧
      ∀ c, cancelAt = some c → f ∈ batch.take (c - p0) :=
  mem_findUnusedAux_spec batch contents overrides cancelAt f batch p0 hf

/-- C6 witness: with cancellation observed at the second file's poll, the
result holds only the first file, which was fully compared (no match) and
lies in the prefix processed before cancellation. -/
theorem c6_cancellation_omits_unchecked_witness :
    "/r/a.ts" ∈ (findUnusedFiles ["/r/a.ts", "/r/b.ts"] (fun _ => some "")
      (fun _ => false) (some 1) 0).1 ∧
    ((fun _ => false : String → Bool) "/r/a.ts" = false ∧
      isUsedIn ["/r/a.ts", "/r/b.ts"] (fun _ => some "") "/r/a.ts" = false ∧
      "/r/a.ts" ∈ (["/r/a.ts", "/r/b.ts"] : List String) ∧
      ∀ c, (some 1 : Option Nat) = some c →
        "/r/a.ts" ∈ (["/r/a.ts", "/r/b.ts"] : List String).take (c - 0)) :=
  ⟨by decide,
   c6_cancellation_omits_unchecked ["/r/a.ts", "/r/b.ts"] (fun _ => some "")
     (fun _ => false) (some 1) 0 "/r/a.ts" (by decide)⟩

/-- C7: every path the walker returns comes from a file none of whose
ancestor directory names (at any nesting depth) matches an entry of
`ignoreFolders`; equivalently, nothing beneath a directory with an ignored
name is ever enumerated. -/
theorem c7_ignored_folders_pruned (dirPath : String) (iF iR : List String)
    (tree : EntryList) (p : String) (hp : p ∈ getAllFiles dirPath iF iR tree) :
    ∃ chain fname, (chain, fname) ∈ collectFiles tree ∧
      (∀ n ∈ chain, n ∉ iF) ∧ p = joinAll dirPath chain fname := by
  rw [getAllFiles_eq_keep] at hp
  obtain ⟨x, hx, hpx⟩ := List.mem_map.mp hp
  obtain ⟨hmem, hkeep⟩ := List.mem_filter.mp hx
  simp only [keepFile, Bool.and_eq_true] at hkeep
  refine ⟨x.1, x.2, by simpa using hmem, ?_, hpx.symm⟩
  intro n hn
  have h1 := hkeep.1
  rw [List.all_eq_true] at h1
  simpa using h1 n hn

/-- C7 witness: with `vendor` ignored, the walker's output contains
`/root/z.ts`, and it indeed stems from a file whose directory chain avoids
`vendor`. -/
theorem c7_ignored_folders_pruned_witness :
    "/root/z.ts" ∈ getAllFiles "/root" ["vendor"] ["README.md"] wtree ∧
    ∃ chain fname, (chain, fname) ∈ collectFiles wtree ∧
      (∀ n ∈ chain, n ∉ (["vendor"] : List String)) ∧
      "/root/z.ts" = joinAll "/root" chain fname :=
  ⟨by decide,
   c7_ignored_folders_pruned "/root" ["vendor"] ["README.md"] wtree
     "/root/z.ts" (by decide)⟩

/-- C8: every path the walker returns has a filename outside
`ignoreRootFiles`, whatever directory contains it — the rule is applied
uniformly during recursion at every depth, not only at the true root. -/
theorem c8_ignore_rootfiles_all_depths (dirPath : String) (iF iR : List String)
    (tree : EntryList) (p : String) (hp : p ∈ getAllFiles dirPath iF iR tree) :
    ∃ chain fname, (chain, fname) ∈ collectFiles tree ∧ fname ∉ iR ∧
      p = joinAll dirPath chain fname := by
  rw [getAllFiles_eq_keep] at hp
  obtain ⟨x, hx, hpx⟩ := List.mem_map.mp hp
  obtain ⟨hmem, hkeep⟩ := List.mem_filter.mp hx
  simp only [keepFile, Bool.and_eq_true] at hkeep
  refine ⟨x.1, x.2, by simpa using hmem, ?_, hpx.symm⟩
  simpa using hkeep.2

/-- C8 witness: `README.md` is excluded even one level below the root — the
walker output for `wtree` contains `/root/src/y.ts` but its witnessing
filename is not an ignored root filename, and no walker output corresponds
to the nested `README.md`. -/
theorem c8_ignore_rootfiles_all_depths_witness :
    "/root/src/y.ts" ∈ getAllFiles "/root" ["vendor"] ["README.md"] wtree ∧
    ∃ chain fname, (chain, fname) ∈ collectFiles wtree ∧
      fname ∉ (["README.md"] : List String) ∧
      "/root/src/y.ts" = joinAll "/root" chain fname :=
  ⟨by decide,
   c8_ignore_rootfiles_all_depths "/root" ["vendor"] ["README.md"] wtree
     "/root/src/y.ts" (by decide)⟩

/-- C9: the configuration resolver is total — an absent or unparsable
config file yields exactly the built-in defaults (full fallback), and a
parsed JSON record is overlaid per key onto the defaults: looking up any
key in the result gives the user's (last) binding when the user provided
the key, and the default binding otherwise, so unknown user keys never
disturb the three recognized keys. -/
theorem c9_config_resolution :
    readConfigFile ConfigSource.absent = defaultFields ∧
    readConfigFile ConfigSource.malformed = defaultFields ∧
    ∀ (user : List (String × Json)) (k : String),
      getField (readConfigFile (ConfigSource.parsed (Json.obj user))) k =
        match getField user k with
        | some w => some w
        | none => getField defaultFields k :=
  ⟨rfl, rfl, fun user k => getField_append defaultFields user k⟩

/-- C10: the deletion handler removes every occurrence of the deleted path
from the current unused list when present, and leaves the list unchanged
when the path is not in it; no rescan is involved (the handler is a pure
list update). -/
theorem c10_delete_notification (l : List String) (p : String) :
    (p ∈ l → onDelete l p = removeAll l p) ∧ (p ∉ l → onDelete l p = l) :=
  ⟨fun _ => onDelete_eq_removeAll l p,
   fun h => (onDelete_eq_removeAll l p).trans (removeAll_of_not_mem l p h)⟩

/-- C10 witness: deleting a present path strips all its occurrences;
deleting an absent path is a no-op. -/
theorem c10_delete_notification_witness :
    onDelete ["/r/a.ts", "/r/b.ts", "/r/a.ts"] "/r/a.ts" =
      removeAll ["/r/a.ts", "/r/b.ts", "/r/a.ts"] "/r/a.ts" ∧
    onDelete ["/r/b.ts"] "/r/a.ts" = ["/r/b.ts"] :=
  ⟨(c10_delete_notification ["/r/a.ts", "/r/b.ts", "/r/a.ts"] "/r/a.ts").1
      (by decide),
   (c10_delete_notification ["/r/b.ts"] "/r/a.ts").2 (by decide)⟩

/-- C1 counterexample: in a 101-file project the scan runs two batches
(files 0 to 99, then file 100 alone). File 0 has no override and its
basename `aa.ts` appears verbatim as the entire content of tracked file
100, yet the uncancelled scan delivers every file — file 0 included — as
unused, because the engine compares file 0 only against its own batch,
which does not contain file 100. -/
theorem c1_cross_batch_counterexample :
    cePath 0 ∈ ceTracked ∧ cePath 100 ∈ ceTracked ∧ cePath 100 ≠ cePath 0 ∧
    ceContents (cePath 100) = some "aa.ts" ∧
    jsIncludes "aa.ts" (basename (cePath 0)) = true ∧
    ((fun _ => false : String → Bool) (cePath 0) = false) ∧
    scan ceTracked ceContents (fun _ => false) none = ⟨some ceTracked, false⟩ :=
  ⟨by decide, by decide, by decide, by decide, by decide, rfl, rfl⟩

/-- C1 (amended): the reference heuristic is batch-local — a candidate is
matched against the content of the other files of the batch handed to
`findUnusedFiles`, so whenever the candidate's basename occurs in another
file of the same batch the candidate is not reported unused; a reference
from a file outside the batch carries no weight (see the counterexample). -/
theorem c1_batch_local_reference (batch : List String)
    (contents : String → Option String) (overrides : String → Bool)
    (cancelAt : Option Nat) (p0 : Nat) (f other cOther : String)
    (hmem : other ∈ batch) (hne : other ≠ f) (hc : contents other = some cOther)
    (hinc : jsIncludes cOther (basename f) = true) :
    f ∉ (findUnusedFiles batch contents overrides cancelAt p0).1 := by
  apply not_mem_findUnusedAux batch contents overrides cancelAt f
    (Or.inr ?_) batch p0
  simp only [isUsedIn, List.any_eq_true]
  refine ⟨other, hmem, ?_⟩
  rw [hc]
  simp [hne, hinc]

/-- C1 amended witness: within one batch, a file whose basename occurs in a
batchmate's content is not reported unused. -/
theorem c1_batch_local_reference_witness :
    "/r/b.ts" ∈ (["/r/a.ts", "/r/b.ts"] : List String) ∧
    "/r/a.ts" ∉ (findUnusedFiles ["/r/a.ts", "/r/b.ts"]
      (fun q => if q = "/r/b.ts" then some "sees a.ts here" else some "")
      (fun _ => false) none 0).1 :=
  ⟨by decide,
   c1_batch_local_reference ["/r/a.ts", "/r/b.ts"]
     (fun q => if q = "/r/b.ts" then some "sees a.ts here" else some "")
     (fun _ => false) none 0 "/r/a.ts" "/r/b.ts" "sees a.ts here"
     (by decide) (by decide) (by decide) (by decide)⟩

/-- C2 counterexample: a two-file scan whose cancellation is observed at
the second engine poll (so the scan is truncated mid-batch: the uncancelled
run of the same input delivers both files, the cancelled run only the
first) nevertheless delivers its partial result as a normal completion —
`canceledMsg` is `false`, so no cancellation signal accompanies the partial
result, contradicting the claimed outcome shape. -/
theorem c2_partial_with_signal_counterexample :
    scan ["/r/a.ts", "/r/b.ts"] (fun _ => some "") (fun _ => false) (some 2) =
      ⟨some ["/r/a.ts"], false⟩ ∧
    scan ["/r/a.ts", "/r/b.ts"] (fun _ => some "") (fun _ => false) none =
      ⟨some ["/r/a.ts", "/r/b.ts"], false⟩ :=
  ⟨rfl, rfl⟩

/-- C2 (amended): a scan never raises and never pairs a delivered result
with a cancellation signal — every run either shows the cancellation
message and delivers nothing (the accumulated partial list is discarded
when cancellation is observed at a batch boundary), or shows normal
completion and delivers a list (which is truncated, without any
cancellation signal, when cancellation is first observed inside the final
batch). -/
theorem c2_cancellation_outcome (contents : String → Option String)
    (overrides : String → Bool) (cancelAt : Option Nat)
    (bs : List (List String)) : ∀ (p : Nat) (acc : List String),
    ((scanLoop contents overrides cancelAt bs p acc).canceledMsg = true ∧
      (scanLoop contents overrides cancelAt bs p acc).refreshed = none) ∨
    ((scanLoop contents overrides cancelAt bs p acc).canceledMsg = false ∧
      ∃ l, (scanLoop contents overrides cancelAt bs p acc).refreshed = some l) := by
  induction bs with
  | nil => intro p acc; exact Or.inr ⟨rfl, acc, rfl⟩
  | cons batch more ih =>
    intro p acc
    simp only [scanLoop]
    split
    · exact Or.inl ⟨rfl, rfl⟩
    · exact ih _ _

/-- C3 counterexample: on the worked example tree the uncancelled scan does
not deliver the single-element list `["/root/c.ts"]` the claim expects. -/
theorem c3_expected_list_counterexample :
    (runScan "/root" c3tree ⟨[".ts"], [], []⟩ (fun _ => false) none).refreshed ≠
      some ["/root/c.ts"] := by decide

/-- C3 (amended): on the worked example tree — `a.ts` empty, `b.ts`
containing `import "./a"`, `c.ts` empty, configuration tracking only
`.ts`, no ignores, no overrides — the uncancelled scan delivers exactly
`["/root/b.ts", "/root/c.ts"]`: `a.ts` is used through the stem match in
`b.ts`, while both `b.ts` (nothing references it) and `c.ts` are reported
unused. -/
theorem c3_example_scan_result :
    runScan "/root" c3tree ⟨[".ts"], [], []⟩ (fun _ => false) none =
      ⟨some ["/root/b.ts", "/root/c.ts"], false⟩ := rfl

end Scavenger
